import Mathlib

/-!
Verification development for the two security-gating engines of the
DesktopCommanderMCP repository:

* `src/command-manager.ts` — CommandGuard: blocked-command gate
  (`getBaseCommand`, `validateCommand`, `blockCommand`, `unblockCommand`,
  `listBlockedCommands`) and compound-command decomposition
  (`extractCommands`, `extractBaseCommand`).
* `src/tools/filesystem.ts` — PathSandbox: `validatePath`,
  `validateParentDirectories`, `normalizePath`, `expandHome`, together with
  the Node `path` (posix) primitives they call.

Strings are modelled at the `List Char` level (JavaScript string scanning is
index-based; lists make the scanners structurally recursive), with `String`
wrappers at the interface.  JavaScript loops and recursion are modelled with
an explicit fuel parameter; every wrapper passes a fuel that provably
dominates the loop bound, so fuel exhaustion corresponds exactly to the
stack-overflow path caught by the source's `try`/`catch` blocks.
-/

/-- Whitespace class of JavaScript `\s`, `trim()` and `split(/\s+/)`,
restricted to the ASCII range used by this program. -/
def jsIsWs (c : Char) : Bool :=
  c = ' ' ∨ c = '\t' ∨ c = '\n' ∨ c = '\r' ∨ c = '\x0b' ∨ c = '\x0c'

/-- JavaScript `toLowerCase()` on the ASCII range. -/
def jsToLowerChar (c : Char) : Char :=
  if 'A' ≤ c ∧ c ≤ 'Z' then Char.ofNat (c.toNat + 32) else c

/-- Word-character class of the JavaScript regex `\w`. -/
def isWordChar (c : Char) : Bool :=
  ('a' ≤ c ∧ c ≤ 'z') ∨ ('A' ≤ c ∧ c ≤ 'Z') ∨ ('0' ≤ c ∧ c ≤ '9') ∨ c = '_'

/-- JavaScript `trim()`: drop whitespace from both ends. -/
def trimL (s : List Char) : List Char :=
  ((s.dropWhile jsIsWs).reverse.dropWhile jsIsWs).reverse

/-! ## CommandGuard: `src/command-manager.ts` -/

/-- DEFAULT_BLOCKED_COMMANDS from `command-manager.ts`. -/
def DEFAULT_BLOCKED_COMMANDS : List String :=
  ["format", "mount", "umount", "mkfs", "fdisk", "dd", "sudo", "su",
   "passwd", "adduser", "useradd", "usermod", "groupadd"]

/-- Core of `getBaseCommand`: `command.split(' ')[0].toLowerCase().trim()`.
`split(' ')[0]` is the prefix of the string up to the first space
character U+0020 (only that character, not general whitespace). -/
def getBaseCommandL (s : List Char) : List Char :=
  trimL ((s.takeWhile (fun c => ¬ c = ' ')).map jsToLowerChar)

/-- `getBaseCommand` of `command-manager.ts` at the `String` interface. -/
def getBaseCommand (command : String) : String :=
  ⟨getBaseCommandL command.toList⟩

/-- `validateCommand`: the gate checks only the coarse base command of the
raw string against the blocked set. -/
def validateCommand (blockedCommands : List String) (command : String) : Bool :=
  ¬ (getBaseCommand command ∈ blockedCommands)

/-- The separator list of `extractCommands`, in the source's order:
`[';', '&&', '||', '|', '&']`. -/
def SEPARATORS : List (List Char) :=
  [[';'], ['&', '&'], ['|', '|'], ['|'], ['&']]

/-- The separator matched at the current scan position: the first entry of
`SEPARATORS` (in order) that is a prefix of the remaining input, mirroring
the `for (const separator of separators)` loop with `startsWith`. -/
def matchSep (s : List Char) : Option (List Char) :=
  SEPARATORS.find? (fun sep => sep.isPrefixOf s)

/-- The balanced-parenthesis scan of the subshell branch of
`extractCommands`: starting just after an `(` with `opened` open
parentheses, consume characters (counting `(` and `)`) until the count
reaches zero or the input ends.  Returns the consumed characters and the
remainder; the subshell content is the consumed list minus its last
character, exactly matching `substring(i + 1, j - 1)` in the source. -/
def parenAux : Nat → List Char → List Char × List Char
  | _, [] => ([], [])
  | opened, c :: cs =>
    let opened2 := if c = '(' then opened + 1 else if c = ')' then opened - 1 else opened
    if opened2 = 0 then ([c], cs)
    else
      let pr := parenAux opened2 cs
      (c :: pr.1, pr.2)

/-- One attempted match of the regex `\w+=\S+\s*` at the start of the
input (`extractBaseCommand`'s env-var strip).  Greedy and deterministic:
maximal `\w+` run, a literal `=`, maximal nonempty `\S+` run, maximal
`\s*` run.  Returns the remainder after the match, or `none`. -/
def ebcTryMatch (s : List Char) : Option (List Char) :=
  let w := s.takeWhile isWordChar
  if w = [] then none
  else
    match s.drop w.length with
    | [] => none
    | a :: rest2 =>
      if a = '=' then
        let v := rest2.takeWhile (fun c => ¬ jsIsWs c)
        if v = [] then none
        else some ((rest2.drop v.length).dropWhile jsIsWs)
      else none

/-- Global replacement `replace(/\w+=\S+\s*/g, '')`: scan left to right,
removing each match and continuing after it.  The fuel bounds the number
of scan positions; wrappers pass the input length, which suffices because
every step either consumes one character or a whole match. -/
def replGlobal : Nat → List Char → List Char
  | _, [] => []
  | 0, s => s
  | f + 1, c :: cs =>
    match ebcTryMatch (c :: cs) with
    | some rest => replGlobal f rest
    | none => c :: replGlobal f cs

/-- `extractBaseCommand` of `command-manager.ts`: strip `\w+=\S+\s*`
matches globally, trim; `none` if nothing remains; otherwise the first
whitespace-delimited token, discarded when it starts with `(` or `$`,
otherwise lowercased. -/
def extractBaseCommand (commandStr : List Char) : Option (List Char) :=
  let withoutEnvVars := trimL (replGlobal commandStr.length commandStr)
  if withoutEnvVars = [] then none
  else
    let firstToken := withoutEnvVars.takeWhile (fun c => ¬ jsIsWs c)
    match firstToken.head? with
    | some c0 => if c0 = '(' ∨ c0 = '$' then none else some (firstToken.map jsToLowerChar)
    | none => some []

/-- Closing a scan segment: `if (currentCmd.trim()) { ... if (baseCommand)
commands.push(baseCommand) }` — the commands contributed by one segment. -/
def closeSegment (cur : List Char) : List (List Char) :=
  if trimL cur = [] then []
  else
    match extractBaseCommand (trimL cur) with
    | some b => if b = [] then [] else [b]
    | none => []

/-- Scanner state of the `extractCommands` loop: escape flag, in-quote flag,
active quote character (`none` models the source's empty string), current
segment buffer and accumulated commands. -/
structure ScanSt where
  escaped : Bool
  inQuote : Bool
  quoteChar : Option Char
  currentCmd : List Char
  commands : List (List Char)

/-- The character loop of `extractCommands`.  `sub` is the recursive call
applied to subshell contents.  The fuel counts remaining loop iterations;
each step consumes one unit and at least one character, so fuel equal to
the input length (as passed by `extractCommandsF`) never runs out. -/
def scanLoop (sub : List Char → List (List Char)) : Nat → List Char → ScanSt → List (List Char)
  | _, [], st => st.commands ++ closeSegment st.currentCmd
  | 0, _ :: _, st => st.commands ++ closeSegment st.currentCmd
  | f + 1, c :: cs, st =>
    if c = '\\' ∧ st.escaped = false then
      scanLoop sub f cs { st with escaped := true, currentCmd := st.currentCmd ++ [c] }
    else if st.escaped = true then
      scanLoop sub f cs { st with escaped := false, currentCmd := st.currentCmd ++ [c] }
    else if (c = '"' ∨ c = '\'') ∧ st.inQuote = false then
      scanLoop sub f cs { st with inQuote := true, quoteChar := some c, currentCmd := st.currentCmd ++ [c] }
    else if st.quoteChar = some c ∧ st.inQuote = true then
      scanLoop sub f cs { st with inQuote := false, quoteChar := none, currentCmd := st.currentCmd ++ [c] }
    else if st.inQuote = true then
      scanLoop sub f cs { st with currentCmd := st.currentCmd ++ [c] }
    else if c = '(' then
      match cs with
      | [] =>
        -- `substring(i + 1, j - 1)` with `i + 1 > j - 1` swaps its
        -- arguments in JavaScript, yielding the single character "(".
        scanLoop sub f [] { st with commands := st.commands ++ sub ['('] }
      | _ :: _ =>
        let pr := parenAux 1 cs
        scanLoop sub f pr.2 { st with commands := st.commands ++ sub pr.1.dropLast }
    else
      match matchSep (c :: cs) with
      | some sep =>
        scanLoop sub f (cs.drop (sep.length - 1))
          { st with currentCmd := [], commands := st.commands ++ closeSegment st.currentCmd }
      | none => scanLoop sub f cs { st with currentCmd := st.currentCmd ++ [c] }

/-- First-occurrence de-duplication, the order `[...new Set(commands)]`
produces. -/
def dedupAux (seen : List (List Char)) : List (List Char) → List (List Char)
  | [] => []
  | x :: xs => if x ∈ seen then dedupAux seen xs else x :: dedupAux (seen ++ [x]) xs

/-- `[...new Set(commands)]`. -/
def dedupFirst (l : List (List Char)) : List (List Char) :=
  dedupAux [] l

/-- `extractCommands` with an explicit recursion depth.  The depth models
the JavaScript call stack: at depth zero the recursive call overflows, the
enclosing `catch` fires and the frame falls back to
`[getBaseCommand(commandString)]` on its (already trimmed) input — exactly
the source's degraded path. -/
def extractCommandsF : Nat → List Char → List (List Char)
  | 0, s => [getBaseCommandL (trimL s)]
  | depth + 1, s =>
    let t := trimL s
    dedupFirst (scanLoop (extractCommandsF depth) t.length t
      { escaped := false, inQuote := false, quoteChar := none, currentCmd := [], commands := [] })

/-- `extractCommands` of `command-manager.ts`.  The recursion depth
`length + 1` dominates every terminating recursion (each subshell content
is strictly shorter than its enclosing input except for the degenerate
self-reproducing input `"("`, which also overflows in the source). -/
def extractCommands (s : String) : List String :=
  (extractCommandsF (s.toList.length + 1) s.toList).map (fun l => String.mk l)

/-- The normalization `command.toLowerCase().trim()` applied by
`blockCommand` and `unblockCommand`. -/
def jsLowerTrim (s : String) : String :=
  ⟨trimL (s.toList.map jsToLowerChar)⟩

/-- `blockCommand`: returns whether the command was newly added, and the
new blocked set (the `Set` is modelled as its insertion-ordered element
list). -/
def blockCommand (blockedCommands : List String) (command : String) : Bool × List String :=
  let c := jsLowerTrim command
  if c ∈ blockedCommands then (false, blockedCommands)
  else (true, blockedCommands ++ [c])

/-- `unblockCommand`: returns whether the command was removed, and the new
blocked set. -/
def unblockCommand (blockedCommands : List String) (command : String) : Bool × List String :=
  let c := jsLowerTrim command
  if c ∈ blockedCommands then (true, blockedCommands.erase c)
  else (false, blockedCommands)

/-- `listBlockedCommands`: `Array.from(this.blockedCommands).sort()` —
the blocked set sorted lexicographically. -/
def listBlockedCommands (blockedCommands : List String) : List String :=
  List.insertionSort (fun a b => a ≤ b) blockedCommands

/-! ## PathSandbox: `src/tools/filesystem.ts`

The Node `path` module primitives used by `validatePath` are embedded for
the posix flavour (the platform the program's allowed-directory defaults
target): `path.sep = "/"`.  The filesystem itself is an abstract parameter:
`stat` tells whether `fs.stat`/`fs.realpath` succeed on a path, and
`realpath` gives the symlink-resolved real path of an existing path. -/

/-- `path.sep` (posix). -/
def pathSep : String := "/"

/-- Split a character list on a separator character (used for `/`). -/
def splitOnChar (sep : Char) : List Char → List (List Char)
  | [] => [[]]
  | c :: cs =>
    if c = sep then [] :: splitOnChar sep cs
    else
      match splitOnChar sep cs with
      | [] => [[c]]
      | t :: ts => (c :: t) :: ts

/-- One step of Node's `normalizeString` segment processing: skip empty and
`.` segments; on `..` pop the last segment unless it is itself `..` or the
output is empty, in which case append `..` when `allowAboveRoot` and drop
it otherwise. -/
def normStep (allowAboveRoot : Bool) (acc : List (List Char)) (seg : List Char) : List (List Char) :=
  if seg = [] ∨ seg = ['.'] then acc
  else if seg = ['.', '.'] then
    if acc ≠ [] ∧ acc.getLast? ≠ some ['.', '.'] then acc.dropLast
    else if allowAboveRoot then acc ++ [seg]
    else acc
  else acc ++ [seg]

/-- Node's `normalizeString`: resolve `.` and `..` segments and collapse
separators. -/
def normalizeString (allowAboveRoot : Bool) (s : List Char) : List Char :=
  List.intercalate ['/'] ((splitOnChar '/' s).foldl (normStep allowAboveRoot) [])

/-- `path.normalize` (posix). -/
def posixNormalizeL (s : List Char) : List Char :=
  if s = [] then ['.']
  else
    let isAbs := s.head? = some '/'
    let trailing := s.getLast? = some '/'
    let p := normalizeString (¬ isAbs) s
    if p = [] then
      if isAbs then ['/'] else if trailing then ['.', '/'] else ['.']
    else
      let p2 := if trailing then p ++ ['/'] else p
      if isAbs then '/' :: p2 else p2

/-- `path.isAbsolute` (posix). -/
def isAbsolute (p : String) : Bool :=
  p.toList.head? = some '/'

/-- `path.resolve(p)` for the branch where `p` is already absolute. -/
def jsResolveOne (p : String) : String :=
  let r := normalizeString false p.toList
  if r = [] then "/" else ⟨'/' :: r⟩

/-- `path.resolve(cwd, p)` for the branch where `p` is relative; `cwd` is
`process.cwd()`, which is always absolute at runtime. -/
def jsResolveTwo (cwd p : String) : String :=
  let isAbs := cwd.toList.head? = some '/'
  let joined := cwd.toList ++ '/' :: (p.toList ++ ['/'])
  let r := normalizeString (¬ isAbs) joined
  if isAbs then (if r = [] then "/" else ⟨'/' :: r⟩)
  else (if r = [] then "." else ⟨r⟩)

/-- `path.join(a, b)` (posix): ignore empty parts, join with `/`,
normalize; `.` when everything is empty. -/
def pathJoin (a b : String) : String :=
  if a = "" ∧ b = "" then "."
  else if a = "" then ⟨posixNormalizeL b.toList⟩
  else if b = "" then ⟨posixNormalizeL a.toList⟩
  else ⟨posixNormalizeL (a.toList ++ '/' :: b.toList)⟩

/-- `expandHome` of `filesystem.ts`: expand a leading `~/` or a bare `~`
to the home directory (`os.homedir()` is passed in as `home`). -/
def expandHome (home filepath : String) : String :=
  if ['~', '/'].isPrefixOf filepath.toList ∨ filepath = "~" then
    pathJoin home ⟨filepath.toList.drop 1⟩
  else filepath

/-- `path.dirname` (posix, Node's algorithm): scan indices `len-1 .. 1`
from the right, skip trailing separators, skip the last segment, and cut
at the separator found there; `/` or `.` when none is found. -/
def dirnameL (s : List Char) : List Char :=
  if s = [] then ['.']
  else
    let hasRoot := s.head? = some '/'
    let r := (s.drop 1).reverse
    let r3 := (r.dropWhile (fun c => c = '/')).dropWhile (fun c => ¬ c = '/')
    if r3 = [] then (if hasRoot then ['/'] else ['.'])
    else if hasRoot ∧ r3.length = 1 then ['/', '/']
    else s.take r3.length

/-- `path.dirname` at the `String` interface. -/
def dirname (s : String) : String :=
  ⟨dirnameL s.toList⟩

/-- `normalizePath` of `filesystem.ts`: `path.normalize(p).toLowerCase()`. -/
def normalizePath (p : String) : String :=
  ⟨(posixNormalizeL p.toList).map jsToLowerChar⟩

/-- Abstract filesystem: `stat p` is whether `fs.stat`/`fs.realpath`
succeed on `p` (the path exists), and `realpath p` is the symlink-resolved
real path of an existing `p`. -/
structure SysFS where
  stat : String → Bool
  realpath : String → String

/-- `validateParentDirectories` of `filesystem.ts`: walk up through
`path.dirname` until a directory exists, returning `false` at the
filesystem root or at a `dirname` fixed point.  The fuel models the
recursion depth; each recursive step strictly shortens the path, so the
`length + 1` fuel passed by `validationOperation` never runs out. -/
def validateParentDirectories (fs : SysFS) : Nat → String → Bool
  | 0, _ => false
  | f + 1, directoryPath =>
    let parentDir := dirname directoryPath
    if parentDir = directoryPath ∨ parentDir = dirname parentDir then false
    else if fs.stat parentDir then true
    else validateParentDirectories fs f parentDir

/-- The absolute path computed by `validatePath`: expand the home marker,
then `path.resolve` against the current working directory when relative. -/
def absoluteOf (cwd home requested : String) : String :=
  let expandedPath := expandHome home requested
  if isAbsolute expandedPath then jsResolveOne expandedPath
  else jsResolveTwo cwd expandedPath

/-- JavaScript `String.prototype.startsWith`, as a character-list prefix
test. -/
def jsStartsWith (s pre : String) : Bool :=
  pre.toList.isPrefixOf s.toList

/-- The containment check of `validatePath`: the normalized candidate
equals a normalized allowed directory or extends it past a separator. -/
def isAllowedPath (allowedDirectories : List String) (absolute : String) : Bool :=
  allowedDirectories.any (fun dir =>
    normalizePath absolute == normalizePath dir ||
    jsStartsWith (normalizePath absolute) (normalizePath dir ++ pathSep))

/-- The access-denied sentinel string returned by `validatePath`. -/
def accessDeniedMessage (absolute : String) : String :=
  "__ERROR__: Access denied. Path is not within allowed directories: " ++ absolute

/-- The body of `validatePath` (its `validationOperation` closure): deny
paths outside every allowed directory; resolve the real path of existing
paths; for nonexistent paths, walk the parents and return the original
absolute path on both branches. -/
def validationOperation (fs : SysFS) (allowedDirectories : List String)
    (cwd home requestedPath : String) : String :=
  let absolute := absoluteOf cwd home requestedPath
  if isAllowedPath allowedDirectories absolute = false then accessDeniedMessage absolute
  else if fs.stat absolute then fs.realpath absolute
  else if validateParentDirectories fs (absolute.length + 1) absolute then absolute
  else absolute

/-- PATH_VALIDATION_TIMEOUT from `validatePath` (milliseconds). -/
def PATH_VALIDATION_TIMEOUT : Nat := 10000

/-- The timeout sentinel string returned by `validatePath`. -/
def timeoutMessage (requestedPath : String) : String :=
  "__ERROR__: Path validation timed out after " ++ toString (PATH_VALIDATION_TIMEOUT / 1000)
    ++ " seconds for: " ++ requestedPath

/-- `validatePath` of `filesystem.ts`.  Modelled from the spec: the
`withTimeout` helper lives in `src/utils.ts`, which is not part of the
provided sources; per the spec it races the operation against the fixed
budget and yields the fallback value `null` when the timer wins.  The race
outcome is the explicit `timedOut` argument here: when the timer wins the
function returns the timeout sentinel as ordinary data, otherwise the
operation's result. -/
def validatePath (fs : SysFS) (allowedDirectories : List String)
    (cwd home : String) (timedOut : Bool) (requestedPath : String) : String :=
  let result : Option String :=
    if timedOut then none
    else some (validationOperation fs allowedDirectories cwd home requestedPath)
  match result with
  | none => timeoutMessage requestedPath
  | some r => r

/-! ## Helper lemmas -/

/-- takeWhile over an append whose left part satisfies the predicate and
whose next element refutes it. -/
theorem takeWhile_append_cons {α : Type} {p : α → Bool} (pre : List α) (x : α) (post : List α)
    (h1 : ∀ c ∈ pre, p c = true) (h2 : p x = false) :
    (pre ++ x :: post).takeWhile p = pre := by
  induction pre with
  | nil => simp [List.takeWhile_cons, h2]
  | cons a t ih =>
    have ha : p a = true := h1 a (by simp)
    simp [List.takeWhile_cons, ha]
    exact ih (fun c hc => h1 c (by simp [hc]))

/-- Specialization of `takeWhile_append_cons` to the space-splitting
predicate of `getBaseCommand`. -/
theorem takeWhile_ne_space (pre post : List Char) (hpre : ' ' ∉ pre) :
    (pre ++ ' ' :: post).takeWhile (fun c => ¬ c = ' ') = pre := by
  apply takeWhile_append_cons
  · intro c hc
    simp only [decide_eq_true_eq]
    intro h
    exact hpre (h ▸ hc)
  · simp

/-! ## Concrete filesystems used as witnesses -/

/-- A filesystem in which nothing exists. -/
def emptyFS : SysFS :=
  ⟨fun _ => false, fun p => p⟩

/-- A filesystem holding a single entry `/allowed/link`, a symbolic link
whose real path `/outside/secret` lies outside every allowed directory. -/
def symlinkFS : SysFS :=
  ⟨fun p => p == "/allowed/link", fun p => if p == "/allowed/link" then "/outside/secret" else p⟩

/-! ## Claim theorems -/

/-- C1 (counterexample): the requested path `/allowed/link` exists and
passes the containment check, yet `validatePath` returns its real path
`/outside/secret`, which lies within no allowed directory — a symlink can
point outside the sandbox while being reported as validated. -/
theorem validatePath_symlink_outside_counterexample :
    isAllowedPath ["/allowed"] (absoluteOf "/" "/home/user" "/allowed/link") = true ∧
    symlinkFS.stat (absoluteOf "/" "/home/user" "/allowed/link") = true ∧
    validationOperation symlinkFS ["/allowed"] "/" "/home/user" "/allowed/link" = "/outside/secret" ∧
    isAllowedPath ["/allowed"] "/outside/secret" = false := by
  decide

/-- C1 (amended): for every requested path that exists and passes the
containment check, `validatePath` returns the symlink-resolved real path;
the containment check applies only to the pre-resolution absolute path, so
the returned canonical path need not lie within an allowed directory. -/
theorem validatePath_existing_returns_realpath (fs : SysFS) (allowedDirectories : List String)
    (cwd home requestedPath : String)
    (hallow : isAllowedPath allowedDirectories (absoluteOf cwd home requestedPath) = true)
    (hstat : fs.stat (absoluteOf cwd home requestedPath) = true) :
    validationOperation fs allowedDirectories cwd home requestedPath =
      fs.realpath (absoluteOf cwd home requestedPath) := by
  simp [validationOperation, hallow, hstat]

/-- Witness for `validatePath_existing_returns_realpath`. -/
theorem validatePath_existing_returns_realpath_witness :
    validationOperation symlinkFS ["/allowed"] "/" "/home/user" "/allowed/link" =
      symlinkFS.realpath (absoluteOf "/" "/home/user" "/allowed/link") :=
  validatePath_existing_returns_realpath symlinkFS ["/allowed"] "/" "/home/user" "/allowed/link"
    (by decide) (by decide)

/-- C2: the allow/deny gate `validateCommand` is computed from only the
coarse base command of the raw string (so any two raw strings with the same
base command get the same verdict), and on the default blocked set
`"sudo rm -rf /"` is denied while `"ls; sudo rm -rf /"` is allowed — a
blocked command appearing after a separator is not denied. -/
theorem validateCommand_gate_leading_token :
    (∀ (blockedCommands : List String) (c₁ c₂ : String),
      getBaseCommand c₁ = getBaseCommand c₂ →
      validateCommand blockedCommands c₁ = validateCommand blockedCommands c₂) ∧
    validateCommand DEFAULT_BLOCKED_COMMANDS "sudo rm -rf /" = false ∧
    validateCommand DEFAULT_BLOCKED_COMMANDS "ls; sudo rm -rf /" = true := by
  refine ⟨?_, by decide, by decide⟩
  intro bs c₁ c₂ h
  simp [validateCommand, h]

/-- Witness for `validateCommand_gate_leading_token`. -/
theorem validateCommand_gate_leading_token_witness :
    validateCommand DEFAULT_BLOCKED_COMMANDS "sudo rm" =
      validateCommand DEFAULT_BLOCKED_COMMANDS "sudo ls" :=
  validateCommand_gate_leading_token.1 DEFAULT_BLOCKED_COMMANDS "sudo rm" "sudo ls" (by decide)

/-- C3: whenever the normalized absolute form of the requested path neither
equals any allowed directory nor extends one past a separator (the
containment check fails), `validatePath`'s operation returns the
access-denied result — never a resolved path. -/
theorem validationOperation_outside_denied (fs : SysFS) (allowedDirectories : List String)
    (cwd home requestedPath : String)
    (hout : isAllowedPath allowedDirectories (absoluteOf cwd home requestedPath) = false) :
    validationOperation fs allowedDirectories cwd home requestedPath =
      accessDeniedMessage (absoluteOf cwd home requestedPath) := by
  simp [validationOperation, hout]

/-- Witness for `validationOperation_outside_denied`. -/
theorem validationOperation_outside_denied_witness :
    validationOperation emptyFS ["/allowed"] "/" "/root" "/etc/passwd" =
      accessDeniedMessage (absoluteOf "/" "/root" "/etc/passwd") :=
  validationOperation_outside_denied emptyFS ["/allowed"] "/" "/root" "/etc/passwd" (by decide)

/-- C4: denials and timeouts are data, not exceptions: the timeout budget
is the fixed 10,000 ms constant; when the timer wins the race,
`validatePath` returns the timeout sentinel on its normal return path, and
when containment fails it returns the access-denied sentinel — in every
case a value is returned, never a raise. -/
theorem validatePath_denial_and_timeout_are_data :
    PATH_VALIDATION_TIMEOUT = 10000 ∧
    (∀ (fs : SysFS) (allowedDirectories : List String) (cwd home requestedPath : String),
      validatePath fs allowedDirectories cwd home true requestedPath =
        timeoutMessage requestedPath) ∧
    (∀ (fs : SysFS) (allowedDirectories : List String) (cwd home requestedPath : String),
      isAllowedPath allowedDirectories (absoluteOf cwd home requestedPath) = false →
      validatePath fs allowedDirectories cwd home false requestedPath =
        accessDeniedMessage (absoluteOf cwd home requestedPath)) := by
  refine ⟨rfl, ?_, ?_⟩
  · intro fs allowedDirectories cwd home requestedPath
    simp [validatePath]
  · intro fs allowedDirectories cwd home requestedPath hout
    simp [validatePath, validationOperation, hout]

/-- Witness for `validatePath_denial_and_timeout_are_data`. -/
theorem validatePath_denial_and_timeout_are_data_witness :
    validatePath emptyFS ["/srv/data"] "/" "/root" false "/var/log/syslog" =
      accessDeniedMessage (absoluteOf "/" "/root" "/var/log/syslog") :=
  validatePath_denial_and_timeout_are_data.2.2 emptyFS ["/srv/data"] "/" "/root" "/var/log/syslog"
    (by decide)

/-- C5: for a contained path that does not exist, the operation returns the
original absolute path whether or not the parent walk finds an existing
ancestor; the parent walk stops with `false` at a `dirname` fixed point
(the filesystem root), and answers `true` as soon as a parent exists. -/
theorem validationOperation_nonexistent_returns_absolute :
    (∀ (fs : SysFS) (allowedDirectories : List String) (cwd home requestedPath : String),
      isAllowedPath allowedDirectories (absoluteOf cwd home requestedPath) = true →
      fs.stat (absoluteOf cwd home requestedPath) = false →
      validationOperation fs allowedDirectories cwd home requestedPath =
        absoluteOf cwd home requestedPath) ∧
    (∀ (fs : SysFS) (f : Nat) (d : String),
      dirname d = d ∨ dirname d = dirname (dirname d) →
      validateParentDirectories fs (f + 1) d = false) ∧
    (∀ (fs : SysFS) (f : Nat) (d : String),
      ¬ (dirname d = d ∨ dirname d = dirname (dirname d)) →
      fs.stat (dirname d) = true →
      validateParentDirectories fs (f + 1) d = true) := by
  refine ⟨?_, ?_, ?_⟩
  · intro fs allowedDirectories cwd home requestedPath hallow hstat
    simp [validationOperation, hallow, hstat]
  · intro fs f d h
    simp only [validateParentDirectories]
    rw [if_pos]
    exact h
  · intro fs f d h hstat
    simp only [validateParentDirectories]
    rw [if_neg h, if_pos hstat]

/-- Witness for `validationOperation_nonexistent_returns_absolute`. -/
theorem validationOperation_nonexistent_returns_absolute_witness :
    validationOperation emptyFS ["/allowed"] "/" "/home/u" "/allowed/new/file.txt" =
      absoluteOf "/" "/home/u" "/allowed/new/file.txt" ∧
    validateParentDirectories emptyFS 1 "/" = false ∧
    validateParentDirectories symlinkFS 1 "/allowed/link/sub" = true := by
  refine ⟨?_, ?_, ?_⟩
  · exact validationOperation_nonexistent_returns_absolute.1 emptyFS ["/allowed"] "/" "/home/u"
      "/allowed/new/file.txt" (by decide) (by decide)
  · exact validationOperation_nonexistent_returns_absolute.2.1 emptyFS 0 "/" (by decide)
  · exact validationOperation_nonexistent_returns_absolute.2.2 symlinkFS 0 "/allowed/link/sub"
      (by decide) (by decide)

/-- C9: `blockCommand` adds the lowercase-normalized name and reports
whether it was newly added (no state change when already present),
`unblockCommand` is its inverse, `listBlockedCommands` is a sorted
permutation of the blocked set, and the concrete `curl` scenario behaves
as specified. -/
theorem blockCommand_unblock_list_algebra :
    (∀ (s : List String) (name : String),
      (jsLowerTrim name ∈ s → blockCommand s name = (false, s)) ∧
      (jsLowerTrim name ∉ s → blockCommand s name = (true, s ++ [jsLowerTrim name]))) ∧
    (∀ (s : List String) (name : String),
      (jsLowerTrim name ∈ s → unblockCommand s name = (true, s.erase (jsLowerTrim name))) ∧
      (jsLowerTrim name ∉ s → unblockCommand s name = (false, s))) ∧
    (∀ s : List String,
      (listBlockedCommands s).Sorted (fun a b => a ≤ b) ∧ List.Perm (listBlockedCommands s) s) ∧
    blockCommand DEFAULT_BLOCKED_COMMANDS "curl" = (true, DEFAULT_BLOCKED_COMMANDS ++ ["curl"]) ∧
    validateCommand (DEFAULT_BLOCKED_COMMANDS ++ ["curl"]) "curl http://x" = false ∧
    blockCommand (DEFAULT_BLOCKED_COMMANDS ++ ["curl"]) "curl" =
      (false, DEFAULT_BLOCKED_COMMANDS ++ ["curl"]) ∧
    unblockCommand (DEFAULT_BLOCKED_COMMANDS ++ ["curl"]) "curl" =
      (true, DEFAULT_BLOCKED_COMMANDS) ∧
    validateCommand DEFAULT_BLOCKED_COMMANDS "curl http://x" = true ∧
    unblockCommand DEFAULT_BLOCKED_COMMANDS "curl" = (false, DEFAULT_BLOCKED_COMMANDS) := by
  refine ⟨?_, ?_, ?_, by decide, by decide, by decide, by decide, by decide, by decide⟩
  · intro s name
    constructor <;> intro h <;> simp [blockCommand, h]
  · intro s name
    constructor <;> intro h <;> simp [unblockCommand, h]
  · intro s
    exact ⟨List.sorted_insertionSort _ s, List.perm_insertionSort _ s⟩

/-- Witness for `blockCommand_unblock_list_algebra`. -/
theorem blockCommand_unblock_list_algebra_witness :
    blockCommand ["ls"] "CURL " = (true, ["ls"] ++ [jsLowerTrim "CURL "]) ∧
    unblockCommand ["ls"] "wget" = (false, ["ls"]) :=
  ⟨(blockCommand_unblock_list_algebra.1 ["ls"] "CURL ").2 (by decide),
   (blockCommand_unblock_list_algebra.2.1 ["ls"] "wget").2 (by decide)⟩

/-- C10: `getBaseCommand` splits only on the space character U+0020: for a
leading chunk containing no space (even one containing a tab between two
words), the base command is the whole chunk up to the first space, so
`"sudo\trm -rf /"` yields base command `"sudo\trm"` and is allowed even
though `"sudo"` itself is in the default blocked set. -/
theorem getBaseCommand_splits_on_space_only :
    getBaseCommand "sudo\trm -rf /" = "sudo\trm" ∧
    "sudo" ∈ DEFAULT_BLOCKED_COMMANDS ∧
    validateCommand DEFAULT_BLOCKED_COMMANDS "sudo\trm -rf /" = true ∧
    (∀ pre post : List Char, ' ' ∉ pre →
      getBaseCommandL (pre ++ ' ' :: post) = trimL (pre.map jsToLowerChar)) := by
  refine ⟨by decide, by decide, by decide, ?_⟩
  intro pre post hpre
  unfold getBaseCommandL
  rw [takeWhile_ne_space pre post hpre]

/-- Witness for `getBaseCommand_splits_on_space_only`. -/
theorem getBaseCommand_splits_on_space_only_witness :
    getBaseCommandL (['s', 'u', 'd', 'o', '\t', 'r', 'm'] ++ ' ' :: ['-', 'x']) =
      trimL (['s', 'u', 'd', 'o', '\t', 'r', 'm'].map jsToLowerChar) :=
  getBaseCommand_splits_on_space_only.2.2.2 ['s', 'u', 'd', 'o', '\t', 'r', 'm'] ['-', 'x']
    (by decide)

/-- Inside a quoted region, the scanner copies characters literally: as
long as the characters are neither the active quote character nor a
backslash, each is appended to the current segment and no split occurs. -/
theorem scanLoop_quoted_copies (sub : List Char → List (List Char)) :
    ∀ (content : List Char) (f : Nat) (rest : List Char) (st : ScanSt) (q : Char),
      st.escaped = false → st.inQuote = true → st.quoteChar = some q →
      (∀ c ∈ content, ¬ c = q ∧ ¬ c = '\\') → content.length ≤ f →
      scanLoop sub f (content ++ rest) st =
        scanLoop sub (f - content.length) rest { st with currentCmd := st.currentCmd ++ content } := by
  intro content
  induction content with
  | nil =>
    intro f rest st q hesc hinq hqc _ _
    simp
  | cons c ct ih =>
    intro f rest st q hesc hinq hqc hcs hlen
    obtain ⟨f', rfl⟩ : ∃ f', f = f' + 1 := by
      cases f with
      | zero => simp at hlen
      | succ f' => exact ⟨f', rfl⟩
    have hcq : ¬ c = q := (hcs c (by simp)).1
    have hcb : ¬ c = '\\' := (hcs c (by simp)).2
    show scanLoop sub (f' + 1) (c :: (ct ++ rest)) st = _
    simp only [scanLoop]
    rw [if_neg (fun h => hcb h.1)]
    rw [if_neg (by simp [hesc])]
    rw [if_neg (fun h => by rw [hinq] at h; exact absurd h.2 (by decide))]
    rw [if_neg (fun h => hcq (Option.some.inj (hqc.symm.trans h.1)).symm)]
    rw [if_pos hinq]
    have hlen' : ct.length + 1 ≤ f' + 1 := by simpa using hlen
    rw [ih f' rest { st with currentCmd := st.currentCmd ++ [c] } q hesc hinq hqc
      (fun d hd => hcs d (by simp [hd])) (by omega)]
    simp [List.append_assoc, Nat.succ_sub_succ]

/-- C6: `extractCommands` splits segments on the chain/control separators
only outside quotes, matching the longest separator first (`&&` before
`&`, `||` before `|`), while separators inside a quoted region are copied
literally and do not split: the concrete examples from the spec plus the
general longest-match and quoted-copy properties. -/
theorem extractCommands_separator_splitting :
    extractCommands "a; b && c" = ["a", "b", "c"] ∧
    extractCommands "echo \"a;b\" | grep x" = ["echo", "grep"] ∧
    (∀ rest : List Char, matchSep ('&' :: '&' :: rest) = some ['&', '&']) ∧
    (∀ rest : List Char, matchSep ('|' :: '|' :: rest) = some ['|', '|']) ∧
    (∀ (sub : List Char → List (List Char)) (content : List Char) (f : Nat) (rest : List Char)
        (st : ScanSt) (q : Char),
      st.escaped = false → st.inQuote = true → st.quoteChar = some q →
      (∀ c ∈ content, ¬ c = q ∧ ¬ c = '\\') → content.length ≤ f →
      scanLoop sub f (content ++ rest) st =
        scanLoop sub (f - content.length) rest { st with currentCmd := st.currentCmd ++ content }) := by
  refine ⟨by decide, by decide, ?_, ?_, ?_⟩
  · intro rest
    simp [matchSep, SEPARATORS, List.find?, List.isPrefixOf]
  · intro rest
    simp [matchSep, SEPARATORS, List.find?, List.isPrefixOf]
  · intro sub content f rest st q hesc hinq hqc hcs hlen
    exact scanLoop_quoted_copies sub content f rest st q hesc hinq hqc hcs hlen

/-- Witness for `extractCommands_separator_splitting`. -/
theorem extractCommands_separator_splitting_witness :
    scanLoop (fun _ => []) 2 (['a', ';'] ++ ['"']) ⟨false, true, some '"', ['x'], []⟩ =
      scanLoop (fun _ => []) (2 - ['a', ';'].length) ['"']
        { (⟨false, true, some '"', ['x'], []⟩ : ScanSt) with currentCmd := ['x'] ++ ['a', ';'] } :=
  extractCommands_separator_splitting.2.2.2.2 (fun _ => []) ['a', ';'] 2 ['"']
    ⟨false, true, some '"', ['x'], []⟩ '"' rfl rfl rfl (by decide) (by decide)

/-- Unfolding `parenAux` on an opening parenthesis: the count increases
and the scan continues (the new count `opened + 1` is never zero). -/
theorem parenAux_cons_open (opened : Nat) (cs : List Char) :
    parenAux opened ('(' :: cs) =
      ('(' :: (parenAux (opened + 1) cs).1, (parenAux (opened + 1) cs).2) := rfl

/-- Unfolding `parenAux` on a closing parenthesis that does not yet close
the outermost level: the count decreases and the scan continues. -/
theorem parenAux_cons_close (opened : Nat) (cs : List Char) (h : ¬ opened - 1 = 0) :
    parenAux opened (')' :: cs) =
      (')' :: (parenAux (opened - 1) cs).1, (parenAux (opened - 1) cs).2) := by
  have he : parenAux opened (')' :: cs) =
      if opened - 1 = 0 then ([')'], cs)
      else (')' :: (parenAux (opened - 1) cs).1, (parenAux (opened - 1) cs).2) := rfl
  rw [he, if_neg h]

/-- Unfolding `parenAux` on a character that is not a parenthesis while
the count is positive: the character is consumed and the count is kept. -/
theorem parenAux_cons_other (opened : Nat) (c : Char) (cs : List Char)
    (h1 : ¬ c = '(') (h2 : ¬ c = ')') (h0 : ¬ opened = 0) :
    parenAux opened (c :: cs) =
      (c :: (parenAux opened cs).1, (parenAux opened cs).2) := by
  have he : parenAux opened (c :: cs) =
      if (if c = '(' then opened + 1 else if c = ')' then opened - 1 else opened) = 0
      then ([c], cs)
      else
        (c :: (parenAux (if c = '(' then opened + 1 else if c = ')' then opened - 1 else opened) cs).1,
          (parenAux (if c = '(' then opened + 1 else if c = ')' then opened - 1 else opened) cs).2) := rfl
  rw [he, if_neg h1, if_neg h2, if_neg h0]

/-- The balanced-parenthesis scan finds the matching close parenthesis:
started with `opened` open parentheses on `inner ++ ')' :: rest` where
`inner` keeps the running count positive and ends balancing all but one,
the scan consumes exactly `inner ++ [')']` and leaves `rest`. -/
theorem parenAux_balanced :
    ∀ (inner : List Char) (opened : Nat) (rest : List Char),
      (∀ pre, pre <+: inner → pre.count ')' + 1 ≤ opened + pre.count '(') →
      opened + inner.count '(' = inner.count ')' + 1 →
      parenAux opened (inner ++ ')' :: rest) = (inner ++ [')'], rest) := by
  intro inner
  induction inner with
  | nil =>
    intro opened rest hpre hbal
    have h1 : opened = 1 := by simpa using hbal
    subst h1
    have he : parenAux 1 (')' :: rest) =
        if (1 : Nat) - 1 = 0 then ([')'], rest)
        else (')' :: (parenAux 0 rest).1, (parenAux 0 rest).2) := rfl
    simpa using he
  | cons c cs ih =>
    intro inner_opened rest hpre hbal
    have h0 : 1 ≤ inner_opened := by simpa using hpre [] (by simp)
    have hstep : ∀ pre, pre <+: cs → (c :: pre) <+: (c :: cs) := by
      intro pre hp
      obtain ⟨t, ht⟩ := hp
      exact ⟨t, by simp [ht]⟩
    show parenAux inner_opened (c :: (cs ++ ')' :: rest)) = (c :: (cs ++ [')']), rest)
    by_cases hc1 : c = '('
    · subst hc1
      have hcnt1 : ∀ l : List Char, ('(' :: l).count '(' = l.count '(' + 1 :=
        fun l => List.count_cons_self '(' l
      have hcnt2 : ∀ l : List Char, ('(' :: l).count ')' = l.count ')' :=
        fun l => List.count_cons_of_ne (by decide) l
      rw [parenAux_cons_open]
      rw [ih (inner_opened + 1) rest ?hp1 ?hb1]
      case hp1 =>
        intro pre hp
        have hx := hpre ('(' :: pre) (hstep pre hp)
        rw [hcnt1, hcnt2] at hx
        omega
      case hb1 =>
        have hx := hbal
        rw [hcnt1, hcnt2] at hx
        omega
    · by_cases hc2 : c = ')'
      · subst hc2
        have h2 : 2 ≤ inner_opened := by
          have hx := hpre [')'] ⟨cs, rfl⟩
          simpa using hx
        have hcnt1 : ∀ l : List Char, (')' :: l).count '(' = l.count '(' :=
          fun l => List.count_cons_of_ne (by decide) l
        have hcnt2 : ∀ l : List Char, (')' :: l).count ')' = l.count ')' + 1 :=
          fun l => List.count_cons_self ')' l
        rw [parenAux_cons_close inner_opened _ (by omega)]
        rw [ih (inner_opened - 1) rest ?hp2 ?hb2]
        case hp2 =>
          intro pre hp
          have hx := hpre (')' :: pre) (hstep pre hp)
          rw [hcnt1, hcnt2] at hx
          omega
        case hb2 =>
          have hx := hbal
          rw [hcnt1, hcnt2] at hx
          omega
      · have hcnt1 : ∀ l : List Char, (c :: l).count '(' = l.count '(' :=
          fun l => List.count_cons_of_ne (Ne.symm hc1) l
        have hcnt2 : ∀ l : List Char, (c :: l).count ')' = l.count ')' :=
          fun l => List.count_cons_of_ne (Ne.symm hc2) l
        rw [parenAux_cons_other inner_opened c _ hc1 hc2 (by omega)]
        rw [ih inner_opened rest ?hp3 ?hb3]
        case hp3 =>
          intro pre hp
          have hx := hpre (c :: pre) (hstep pre hp)
          rw [hcnt1, hcnt2] at hx
          omega
        case hb3 =>
          have hx := hbal
          rw [hcnt1, hcnt2] at hx
          omega

/-- Unfolding the scanner on an unquoted opening parenthesis followed by at
least one character: the scan runs the balanced-parenthesis search on the
remainder, hands the consumed characters minus the closing parenthesis to
the recursive extraction `sub`, appends its results, and resumes after the
closing parenthesis. -/
theorem scanLoop_open_paren (sub : List Char → List (List Char)) (f : Nat)
    (c2 : Char) (cs2 : List Char) (st : ScanSt)
    (hesc : st.escaped = false) (hinq : st.inQuote = false) :
    scanLoop sub (f + 1) ('(' :: c2 :: cs2) st =
      scanLoop sub f (parenAux 1 (c2 :: cs2)).2
        { st with commands := st.commands ++ sub (parenAux 1 (c2 :: cs2)).1.dropLast } := by
  obtain ⟨esc, inq, qc, cur, cmds⟩ := st
  dsimp only at hesc hinq
  subst hesc hinq
  have he : scanLoop sub (f + 1) ('(' :: c2 :: cs2) (⟨false, false, qc, cur, cmds⟩ : ScanSt) =
      if qc = some '(' ∧ (false : Bool) = true then
        scanLoop sub f (c2 :: cs2) ⟨false, false, none, cur ++ ['('], cmds⟩
      else
        scanLoop sub f (parenAux 1 (c2 :: cs2)).2
          ⟨false, false, qc, cur, cmds ++ sub (parenAux 1 (c2 :: cs2)).1.dropLast⟩ := rfl
  rw [he, if_neg (fun h => absurd h.2 (by decide))]

/-- C7: on an unquoted `(`, `extractCommands` scans forward counting
balanced parentheses to the matching `)`, recursively extracts the
substring between them, appends its results, and resumes past the closing
parenthesis; concretely, `extractCommands "(rm -rf /)" = ["rm"]`. -/
theorem extractCommands_subshell_recursion :
    extractCommands "(rm -rf /)" = ["rm"] ∧
    (∀ (sub : List Char → List (List Char)) (f : Nat) (inner rest : List Char) (st : ScanSt),
      st.escaped = false → st.inQuote = false →
      (∀ pre, pre <+: inner → pre.count ')' ≤ pre.count '(') →
      inner.count '(' = inner.count ')' →
      scanLoop sub (f + 1) ('(' :: (inner ++ ')' :: rest)) st =
        scanLoop sub f rest { st with commands := st.commands ++ sub inner }) := by
  refine ⟨by decide, ?_⟩
  intro sub f inner rest st hesc hinq hpre hbal
  have hpa : parenAux 1 (inner ++ ')' :: rest) = (inner ++ [')'], rest) :=
    parenAux_balanced inner 1 rest (fun pre hp => by have hx := hpre pre hp; omega) (by omega)
  rcases hcons : inner ++ ')' :: rest with _ | ⟨d, ds⟩
  · simp at hcons
  · rw [hcons] at hpa
    rw [scanLoop_open_paren sub f d ds st hesc hinq]
    rw [hpa]
    simp

/-- Witness for `extractCommands_subshell_recursion`. -/
theorem extractCommands_subshell_recursion_witness :
    scanLoop (fun _ => [['r', 'm']]) 1 ['(', ')'] ⟨false, false, none, [], []⟩ =
      scanLoop (fun _ => [['r', 'm']]) 0 [] ⟨false, false, none, [], [] ++ [['r', 'm']]⟩ :=
  extractCommands_subshell_recursion.2 (fun _ => [['r', 'm']]) 0 [] []
    ⟨false, false, none, [], []⟩ rfl rfl
    (fun pre hp => by
      rw [List.prefix_nil] at hp
      subst hp
      simp)
    rfl

/-- Modelled from the claim's wording of the strip rule: whether a single
whitespace-delimited token is a `KEY=VALUE` environment-variable
assignment — a nonempty run of word characters, `=`, and a nonempty
remainder. -/
def isAssignTok (tok : List Char) : Bool :=
  let w := tok.takeWhile isWordChar
  if w = [] then false
  else
    match tok.drop w.length with
    | a :: v => if a = '=' ∧ ¬ v = [] then true else false
    | [] => false

/-- Modelled from the claim's wording: strip all *leading* `KEY=VALUE`
assignment tokens, and only those (tokens elsewhere in the segment are
untouched).  The fuel bounds the number of stripped tokens; the wrapper
passes the input length. -/
def stripLeadingAssignSpec : Nat → List Char → List Char
  | 0, s => s.dropWhile jsIsWs
  | f + 1, s =>
    let s1 := s.dropWhile jsIsWs
    let tok := s1.takeWhile (fun c => ¬ jsIsWs c)
    if ¬ tok = [] ∧ isAssignTok tok = true then stripLeadingAssignSpec f (s1.drop tok.length)
    else s1

/-- Modelled from the claim's wording of base-command extraction: strip
leading assignment tokens only, then proceed exactly as the code does
(empty remainder yields no command; first token discarded when it starts
with `(` or `$`; otherwise lowercased). -/
def extractBaseCommandSpec (s : List Char) : Option (List Char) :=
  let remaining := trimL (stripLeadingAssignSpec s.length s)
  if remaining = [] then none
  else
    let firstToken := remaining.takeWhile (fun c => ¬ jsIsWs c)
    match firstToken.head? with
    | some c0 => if c0 = '(' ∨ c0 = '$' then none else some (firstToken.map jsToLowerChar)
    | none => some []

/-- C8 (counterexample): the code's strip is a *global* regex replacement,
not a leading-token strip.  On the segment `-a=b ls` the code removes the
inner match `a=b ` from the middle of the first token, yielding base
command `-ls`, while the leading-tokens-only reading yields `-a=b`. -/
theorem extractBaseCommand_leading_only_counterexample :
    extractCommands "-a=b ls" = ["-ls"] ∧
    extractBaseCommand "-a=b ls".toList = some "-ls".toList ∧
    extractBaseCommandSpec "-a=b ls".toList = some "-a=b".toList ∧
    ¬ extractBaseCommand "-a=b ls".toList = extractBaseCommandSpec "-a=b ls".toList := by
  decide

/-- A list whose takeWhile is empty is left unchanged by dropWhile. -/
theorem dropWhile_eq_self_of_takeWhile_eq_nil {p : Char → Bool} (l : List Char)
    (h : l.takeWhile p = []) : l.dropWhile p = l := by
  cases l with
  | nil => rfl
  | cons a t =>
    by_cases hp : p a = true
    · rw [List.takeWhile_cons, if_pos hp] at h
      simp at h
    · rw [List.dropWhile_cons, if_neg hp]

/-- The regex `\w+=\S+\s*` matches a leading `KEY=VALUE ` chunk exactly,
leaving the remainder that starts with a non-whitespace character. -/
theorem ebcTryMatch_assign (key val rest : List Char)
    (hk : ¬ key = []) (hkw : ∀ c ∈ key, isWordChar c = true)
    (hv : ¬ val = []) (hvw : ∀ c ∈ val, jsIsWs c = false)
    (hr : rest.takeWhile jsIsWs = []) :
    ebcTryMatch (key ++ '=' :: (val ++ ' ' :: rest)) = some rest := by
  have hw : (key ++ '=' :: (val ++ ' ' :: rest)).takeWhile isWordChar = key :=
    takeWhile_append_cons key '=' (val ++ ' ' :: rest) hkw (by decide)
  have hd : (key ++ '=' :: (val ++ ' ' :: rest)).drop key.length = '=' :: (val ++ ' ' :: rest) :=
    List.drop_left key ('=' :: (val ++ ' ' :: rest))
  have hvtw : (val ++ ' ' :: rest).takeWhile (fun c => ¬ jsIsWs c) = val := by
    apply takeWhile_append_cons
    · intro c hc
      simp [hvw c hc]
    · decide
  have hvd : (val ++ ' ' :: rest).drop val.length = ' ' :: rest :=
    List.drop_left val (' ' :: rest)
  simp only [ebcTryMatch]
  rw [hw, if_neg hk, hd]
  dsimp only
  rw [if_pos (rfl : ('=' : Char) = '=')]
  rw [hvtw, if_neg hv, hvd]
  rw [List.dropWhile_cons, if_pos (by decide : jsIsWs ' ' = true)]
  rw [dropWhile_eq_self_of_takeWhile_eq_nil rest hr]

/-- A successful regex match strictly shortens the input. -/
theorem ebcTryMatch_some_length (s rest : List Char) (h : ebcTryMatch s = some rest) :
    rest.length < s.length := by
  simp only [ebcTryMatch] at h
  by_cases hw : s.takeWhile isWordChar = []
  · simp [hw] at h
  · rw [if_neg hw] at h
    rcases hd : s.drop (s.takeWhile isWordChar).length with _ | ⟨a, rest2⟩
    · rw [hd] at h
      simp at h
    · rw [hd] at h
      dsimp only at h
      by_cases ha : a = '='
      · rw [if_pos ha] at h
        by_cases hv : rest2.takeWhile (fun c => ¬ jsIsWs c) = []
        · rw [if_pos hv] at h
          exact absurd h (by simp)
        · rw [if_neg hv] at h
          have hrest : rest
              = (rest2.drop (rest2.takeWhile (fun c => ¬ jsIsWs c)).length).dropWhile jsIsWs := by
            simpa using h.symm
          have l1 : rest.length
              ≤ (rest2.drop (rest2.takeWhile (fun c => ¬ jsIsWs c)).length).length := by
            rw [hrest]
            exact (List.dropWhile_sublist _).length_le
          have l2 : (rest2.drop (rest2.takeWhile (fun c => ¬ jsIsWs c)).length).length
              = rest2.length - (rest2.takeWhile (fun c => ¬ jsIsWs c)).length :=
            List.length_drop _ _
          have l3 : 1 ≤ (rest2.takeWhile (fun c => ¬ jsIsWs c)).length := by
            rcases hq : rest2.takeWhile (fun c => ¬ jsIsWs c) with _ | ⟨b, t⟩
            · exact absurd hq hv
            · simp [hq]
          have l4 : (rest2.takeWhile (fun c => ¬ jsIsWs c)).length ≤ rest2.length :=
            (List.takeWhile_sublist _).length_le
          have l5 : rest2.length + 1 ≤ s.length := by
            have hlen := congrArg List.length hd
            rw [List.length_drop] at hlen
            simp at hlen
            omega
          omega
      · rw [if_neg ha] at h
        exact absurd h (by simp)

/-- The result of `replGlobal` does not depend on the fuel, as long as the
fuel dominates the input length. -/
theorem replGlobal_fuel_irrelevant :
    ∀ (f : Nat) (l : List Char), l.length ≤ f → ∀ (g : Nat), l.length ≤ g →
      replGlobal f l = replGlobal g l := by
  intro f
  induction f with
  | zero =>
    intro l hl g hg
    have hnil : l = [] := List.length_eq_zero.mp (Nat.le_zero.mp hl)
    subst hnil
    simp [replGlobal]
  | succ f ih =>
    intro l hl g hg
    cases l with
    | nil => simp [replGlobal]
    | cons c cs =>
      obtain ⟨g', rfl⟩ : ∃ g', g = g' + 1 := by
        cases g with
        | zero => simp at hg
        | succ g' => exact ⟨g', rfl⟩
      have hl' : cs.length ≤ f := by simpa using hl
      have hg' : cs.length ≤ g' := by simpa using hg
      rcases hm : ebcTryMatch (c :: cs) with _ | ⟨rest⟩
      · have e1 : replGlobal (f + 1) (c :: cs) = c :: replGlobal f cs := by
          simp only [replGlobal, hm]
        have e2 : replGlobal (g' + 1) (c :: cs) = c :: replGlobal g' cs := by
          simp only [replGlobal, hm]
        rw [e1, e2, ih cs hl' g' hg']
      · have hlen := ebcTryMatch_some_length (c :: cs) rest hm
        have e1 : replGlobal (f + 1) (c :: cs) = replGlobal f rest := by
          simp only [replGlobal, hm]
        have e2 : replGlobal (g' + 1) (c :: cs) = replGlobal g' rest := by
          simp only [replGlobal, hm]
        rw [e1, e2]
        have hrl : rest.length ≤ cs.length := by
          simp at hlen
          omega
        rw [ih rest (by omega) g' (by omega)]

/-- C8 (amended): base-command extraction strips every occurrence of the
pattern word-characters `=` non-whitespace (plus trailing whitespace)
anywhere in the segment — which in particular removes every leading
`KEY=VALUE` assignment token, as the general conjunct states — then takes
the first remaining whitespace-delimited token, discards it when it starts
with `(` or `$`, and otherwise lowercases it:
`extractCommands "FOO=1 BAR=2 ls -la" = ["ls"]`. -/
theorem extractBaseCommand_env_strip :
    (∀ (key val rest : List Char),
      ¬ key = [] → (∀ c ∈ key, isWordChar c = true) →
      ¬ val = [] → (∀ c ∈ val, jsIsWs c = false) →
      rest.takeWhile jsIsWs = [] →
      extractBaseCommand (key ++ '=' :: (val ++ ' ' :: rest)) = extractBaseCommand rest) ∧
    extractCommands "FOO=1 BAR=2 ls -la" = ["ls"] := by
  refine ⟨?_, by decide⟩
  intro key val rest hk hkw hv hvw hr
  obtain ⟨k, ks, rfl⟩ : ∃ k ks, key = k :: ks := by
    cases key with
    | nil => exact absurd rfl hk
    | cons k ks => exact ⟨k, ks, rfl⟩
  have hm : ebcTryMatch ((k :: ks) ++ '=' :: (val ++ ' ' :: rest)) = some rest :=
    ebcTryMatch_assign (k :: ks) val rest hk hkw hv hvw hr
  simp only [List.cons_append] at hm
  have hL : replGlobal ((k :: ks) ++ '=' :: (val ++ ' ' :: rest)).length
      ((k :: ks) ++ '=' :: (val ++ ' ' :: rest)) = replGlobal rest.length rest := by
    simp only [List.cons_append, List.length_cons]
    have e1 : replGlobal ((ks ++ '=' :: (val ++ ' ' :: rest)).length + 1)
        (k :: (ks ++ '=' :: (val ++ ' ' :: rest)))
        = replGlobal (ks ++ '=' :: (val ++ ' ' :: rest)).length rest := by
      simp only [replGlobal, hm]
    rw [e1]
    apply replGlobal_fuel_irrelevant
    · simp
      omega
    · exact Nat.le_refl _
  simp only [extractBaseCommand]
  rw [hL]

/-- Witness for `extractBaseCommand_env_strip`. -/
theorem extractBaseCommand_env_strip_witness :
    extractBaseCommand ("foo".toList ++ '=' :: ("1".toList ++ ' ' :: "ls".toList)) =
      extractBaseCommand "ls".toList :=
  extractBaseCommand_env_strip.1 "foo".toList "1".toList "ls".toList
    (by decide) (by decide) (by decide) (by decide) (by decide)
